import Mathlib

/-!
Verification of the AUTOEDIT segment-algebra and media-assembly core.

The Python source (src/app/services/editing.py, src/app/utils/silence.py)
is shallowly embedded below.  Times are Python floats on which the code
only performs comparisons, `max`, and the addition of a fixed epsilon;
these operations are modelled exactly over `ℚ`.
-/

/-- Model of the `{'start': float, 'end': float}` dictionaries used by the
source.  The Python key `end` is a Lean keyword, so the field is named
`stop`. -/
structure TimeInterval where
  start : ℚ
  stop : ℚ
deriving DecidableEq, Repr

/-- The sort key used by `_coalesce_ranges`: Python's
`sorted(ranges, key=lambda r: r['start'])` orders by `start` (stably). -/
def startLE (a b : TimeInterval) : Prop := a.start ≤ b.start

instance : DecidableRel startLE :=
  fun a b => inferInstanceAs (Decidable (a.start ≤ b.start))

instance : IsTotal TimeInterval startLE := ⟨fun a b => le_total a.start b.start⟩

instance : IsTrans TimeInterval startLE := ⟨fun _ _ _ h1 h2 => le_trans h1 h2⟩

/-- The default tolerance `eps = 1e-3` of `_coalesce_ranges`. -/
def defaultEps : ℚ := 1/1000

/-- The loop body of `_coalesce_ranges`: `last` is `merged[-1]`; an incoming
range `r` with `r['start'] <= last['end'] + eps` is absorbed by raising
`last['end']` to `max(last['end'], r['end'])`, otherwise `r` is appended and
becomes the new `last`. -/
def coalesceFrom (eps : ℚ) (last : TimeInterval) : List TimeInterval → List TimeInterval
  | [] => [last]
  | r :: rs =>
    if r.start ≤ last.stop + eps then
      coalesceFrom eps ⟨last.start, max last.stop r.stop⟩ rs
    else
      last :: coalesceFrom eps r rs

/-- `_coalesce_ranges(ranges, eps)` from src/app/services/editing.py:
stable-sort by `start`, then walk once merging epsilon-close ranges.
`List.insertionSort` is a stable sort, like Python's `sorted`. -/
def _coalesce_ranges (ranges : List TimeInterval) (eps : ℚ) : List TimeInterval :=
  match List.insertionSort startLE ranges with
  | [] => []
  | r :: rs => coalesceFrom eps r rs

/-- The loop of `_invert_ranges`: walk the remove list tracking a cursor
`cur`; emit a keep range `[cur, r['start'])` whenever `r['start'] > cur`,
advance `cur = max(cur, r['end'])`, and after the loop emit a final
`[cur, duration)` when `cur < duration`. -/
def invertFrom (duration : ℚ) : ℚ → List TimeInterval → List TimeInterval
  | cur, [] => if cur < duration then [⟨cur, duration⟩] else []
  | cur, r :: rs =>
    if r.start > cur then
      ⟨cur, r.start⟩ :: invertFrom duration (max cur r.stop) rs
    else
      invertFrom duration (max cur r.stop) rs

/-- `_invert_ranges(remove, duration)` from src/app/services/editing.py. -/
def _invert_ranges (remove : List TimeInterval) (duration : ℚ) : List TimeInterval :=
  invertFrom duration 0 remove

/-- The set of time points covered by a list of ranges; each range covers
the half-open interval `[start, stop)`. -/
def covered (l : List TimeInterval) : Set ℚ :=
  {x | ∃ i ∈ l, i.start ≤ x ∧ x < i.stop}

/-- `a` ends no later than `b` begins: consecutive intervals in this
relation are non-overlapping and in ascending order. -/
def precedes (a b : TimeInterval) : Prop := a.stop ≤ b.start

/-- One trim stage of the compiled filter graph.  In the source a video
stage is the string `[0:v]trim=start={ss}:end={to},setpts=PTS-STARTPTS[v{idx}]`
(audio: `atrim`/`asetpts`); `ss`/`to` are the interpolated bounds and
`resetPTS` records the `setpts=PTS-STARTPTS` part that rebases the
segment's timestamps to zero. -/
structure TrimStage where
  ss : ℚ
  toVal : ℚ
  resetPTS : Bool
deriving DecidableEq, Repr

/-- The filter graph built by `auto_edit_video` lines 59-94: per-segment
video and audio trim stages, the `[v{idx}][a{idx}]` pair list fed into the
concat stage, and `concat=n={len(keep)}`. -/
structure FilterGraph where
  videoTrims : List TrimStage
  audioTrims : List TrimStage
  concatInputs : List (Nat × Nat)
  concatN : Nat
deriving DecidableEq, Repr

/-- The per-segment clamp in the compile loop: `ss = max(0.0, seg['start'])`. -/
def clampSS (seg : TimeInterval) : ℚ := max 0 seg.start

/-- The per-segment clamp in the compile loop: `to = max(ss, seg['end'])`. -/
def clampTO (seg : TimeInterval) : ℚ := max (clampSS seg) seg.stop

/-- The filter-graph compilation loop of `auto_edit_video` (lines 64-73):
`for idx, seg in enumerate(keep)` appends one video trim, one audio trim
and one `[v{idx}][a{idx}]` concat input per keep segment, and sets
`concat_n = len(keep)`. -/
def autoEditFilterGraph (keep : List TimeInterval) : FilterGraph :=
  { videoTrims := keep.map (fun seg => ⟨clampSS seg, clampTO seg, true⟩)
  , audioTrims := keep.map (fun seg => ⟨clampSS seg, clampTO seg, true⟩)
  , concatInputs := (List.range keep.length).map (fun idx => (idx, idx))
  , concatN := keep.length }

/-- Result of one run of the external media engine (the spawned ffmpeg
child process): its exit code and decoded stderr text. -/
structure EngineRun where
  exitCode : ℤ
  stderr : String
deriving DecidableEq, Repr

/-- Typed view of the errors `auto_edit_video` raises: the source raises
`ValueError("Nothing to keep after removing segments")` when the keep set
is empty (the spec's `NoContentRemainingError`), and
`RuntimeError("ffmpeg failed: " + stderr)` on a nonzero engine exit code
(the spec's `EncodeError`, carrying the engine's diagnostic text). -/
inductive EditError where
  | noContentRemaining
  | encodeError (diagnosticText : String)
deriving DecidableEq, Repr

/-- Control-flow model of `auto_edit_video` (lines 53-123): coalesce the
remove segments, invert against the probed duration, fail with the
no-content error when nothing remains, otherwise compile the filter graph,
spawn the engine exactly once and fail with `encodeError` on a nonzero
exit.  The returned `Nat` counts spawned engine processes; `engine`
stands for the outcome of the single possible spawn. -/
def auto_edit_video (duration : ℚ) (removeSegments : List TimeInterval)
    (engine : EngineRun) : Except EditError FilterGraph × Nat :=
  let remove := _coalesce_ranges removeSegments defaultEps
  let keep := _invert_ranges remove duration
  if keep = [] then
    (Except.error EditError.noContentRemaining, 0)
  else
    let graph := autoEditFilterGraph keep
    if engine.exitCode ≠ 0 then
      (Except.error (EditError.encodeError engine.stderr), 1)
    else
      (Except.ok graph, 1)

/-- A character matched by the regex class `[0-9.]`. -/
def isNumChar (c : Char) : Bool := c.isDigit || c = '.'

/-- Numeric value of a decimal digit character. -/
def digitVal (c : Char) : ℕ := c.toNat - 48

/-- Value of a run of decimal digits (most significant first). -/
def parseNatDigits (cs : List Char) : ℕ :=
  cs.foldl (fun acc c => 10 * acc + digitVal c) 0

/-- Python's `float()` applied to a `[0-9.]+` capture: an optional integer
part, an optional single dot, an optional fractional part, at least one
digit overall.  Returns `none` where `float()` would raise `ValueError`
(empty parts on both sides of the dot, or several dots) — no such capture
appears in any claim. -/
def parseFloat (cs : List Char) : Option ℚ :=
  match cs.splitOn '.' with
  | [ds] => if ds = [] then none else some (parseNatDigits ds : ℚ)
  | [ds, fs] =>
      if ds = [] ∧ fs = [] then none
      else some ((parseNatDigits ds : ℚ) + (parseNatDigits fs : ℚ) / 10 ^ fs.length)
  | _ => none

/-- When `pat` is a literal prefix of `s`, the remainder of `s`. -/
def afterLit (pat : List Char) (s : List Char) : Option (List Char) :=
  match pat, s with
  | [], rest => some rest
  | _ :: _, [] => none
  | p :: ps, c :: cs => if p = c then afterLit ps cs else none

/-- `re.search` for a pattern `lit([0-9.]+)`: scan left to right for the
first position where the literal matches and is followed by at least one
`[0-9.]` character; the greedy capture is the maximal such run. -/
def searchCapture (pat : List Char) : List Char → Option (List Char)
  | [] => none
  | c :: cs =>
    match afterLit pat (c :: cs) with
    | some rest =>
        let run := rest.takeWhile isNumChar
        if run = [] then searchCapture pat cs else some run
    | none => searchCapture pat cs

/-- `_SILENCE_RE_START.search(line)` followed by `float(m.group(1))`. -/
def startMarker (line : List Char) : Option ℚ :=
  (searchCapture "silence_start: ".data line).bind parseFloat

/-- `_SILENCE_RE_END.search(line)` followed by `float(m.group(1))`. -/
def endMarker (line : List Char) : Option ℚ :=
  (searchCapture "silence_end: ".data line).bind parseFloat

/-- Python `str.splitlines` restricted to `\n` boundaries.  It drops a
trailing empty line where this model keeps it; an empty line carries no
marker, so the parse result is unchanged. -/
def splitLines : List Char → List (List Char)
  | [] => [[]]
  | c :: cs =>
    if c = '\n' then [] :: splitLines cs
    else match splitLines cs with
      | [] => [[c]]
      | l :: ls => (c :: l) :: ls

/-- The per-line loop of `detect_silence_intervals` (lines 33-44), with
each line abstracted to its pair of marker matches: the first component is
the `silence_start` capture, the second the `silence_end` capture.  The
state is `current_start`: a start match overwrites it; an end match while
it is set emits `{start, end}` and clears it; an end match while it is
`None` does nothing; anything pending when the stream ends is dropped. -/
def detectLoop : Option ℚ → List (Option ℚ × Option ℚ) → List TimeInterval
  | _, [] => []
  | cs, (m1, m2) :: rest =>
    let cs1 := match m1 with
      | some t => some t
      | none => cs
    match m2, cs1 with
    | some e, some s => ⟨s, e⟩ :: detectLoop none rest
    | some _, none => detectLoop cs1 rest
    | none, _ => detectLoop cs1 rest

/-- `detect_silence_intervals` applied to an already-captured diagnostic
stream `text` (the decoded stderr of the silencedetect run). -/
def detect_silence_intervals (text : String) : List TimeInterval :=
  detectLoop none ((splitLines text.data).map (fun l => (startMarker l, endMarker l)))

/-- Placeholder interval used to read a store position (never hit on
in-range positions). -/
def defaultInterval : TimeInterval := ⟨0, 0⟩

/-- Order on store positions by the `start` of the interval they hold:
the sort key of `sorted(ranges, key=lambda r: r['start'])` lifted to the
object store. -/
def posLE (store : List TimeInterval) (i j : ℕ) : Prop :=
  (store.getD i defaultInterval).start ≤ (store.getD j defaultInterval).start

instance (store : List TimeInterval) : DecidableRel (posLE store) :=
  fun i j => inferInstanceAs (Decidable (_ ≤ _))

/-- Heap-level model of the `_coalesce_ranges` loop, exposing the in-place
write `last['end'] = max(last['end'], r['end'])`: the input dictionaries
live in `store` (position = index in the caller's list, all positions
distinct objects), `lastPos` is the position aliased by `merged[-1]`, and
`accRev` holds the earlier merged positions in reverse.  Returns the final
store together with the merged positions. -/
def coalesceMutGo (eps : ℚ) : List ℕ → List TimeInterval → ℕ → List ℕ →
    List TimeInterval × List ℕ
  | [], store, lastPos, accRev => (store, (lastPos :: accRev).reverse)
  | p :: ps, store, lastPos, accRev =>
    let r := store.getD p defaultInterval
    let last := store.getD lastPos defaultInterval
    if r.start ≤ last.stop + eps then
      coalesceMutGo eps ps (store.set lastPos ⟨last.start, max last.stop r.stop⟩)
        lastPos accRev
    else
      coalesceMutGo eps ps store p (lastPos :: accRev)

/-- Heap-level model of `_coalesce_ranges`: stable-sort the positions of
the caller's dictionaries by their `start`, run the merging walk, and
return both the final state of the caller's dictionaries and the merged
output read off the final store. -/
def coalesceMut (eps : ℚ) (ranges : List TimeInterval) :
    List TimeInterval × List TimeInterval :=
  match List.insertionSort (posLE ranges) (List.range ranges.length) with
  | [] => (ranges, [])
  | p :: ps =>
    let out := coalesceMutGo eps ps ranges p []
    (out.1, out.2.map (fun i => out.1.getD i defaultInterval))

theorem coalesceFrom_cons (eps : ℚ) (last : TimeInterval) (rs : List TimeInterval) :
    ∃ h t, coalesceFrom eps last rs = h :: t ∧ h.start = last.start := by
  induction rs generalizing last with
  | nil => exact ⟨last, [], rfl, rfl⟩
  | cons r rs ih =>
    by_cases hm : r.start ≤ last.stop + eps
    · obtain ⟨h, t, he, hs⟩ := ih ⟨last.start, max last.stop r.stop⟩
      exact ⟨h, t, by simpa [coalesceFrom, hm] using he, hs⟩
    · exact ⟨last, coalesceFrom eps r rs, by simp [coalesceFrom, hm], rfl⟩

theorem coalesceFrom_start_mem (eps : ℚ) (last : TimeInterval)
    (rs : List TimeInterval) :
    ∀ x ∈ coalesceFrom eps last rs,
      x.start = last.start ∨ x.start ∈ rs.map TimeInterval.start := by
  induction rs generalizing last with
  | nil => intro x hx; simp only [coalesceFrom, List.mem_singleton] at hx; left; rw [hx]
  | cons r rs ih =>
    intro x hx
    by_cases hm : r.start ≤ last.stop + eps
    · simp only [coalesceFrom, if_pos hm] at hx
      rcases ih ⟨last.start, max last.stop r.stop⟩ x hx with h | h
      · left; exact h
      · right; simp [h]
    · simp only [coalesceFrom, if_neg hm, List.mem_cons] at hx
      rcases hx with rfl | hx
      · left; rfl
      · rcases ih r x hx with h | h
        · right; simp [h]
        · right; simp [h]

theorem coalesceFrom_sorted (eps : ℚ) (last : TimeInterval)
    (rs : List TimeInterval) (hs : List.Sorted startLE (last :: rs)) :
    List.Sorted startLE (coalesceFrom eps last rs) := by
  induction rs generalizing last with
  | nil => simpa [coalesceFrom] using List.sorted_singleton last
  | cons r rs ih =>
    rw [List.sorted_cons] at hs
    obtain ⟨hlast, hrrs⟩ := hs
    by_cases hm : r.start ≤ last.stop + eps
    · simp only [coalesceFrom, if_pos hm]
      refine ih ⟨last.start, max last.stop r.stop⟩ ?_
      rw [List.sorted_cons]
      refine ⟨?_, hrrs.of_cons⟩
      intro b hb
      exact hlast b (List.mem_cons_of_mem r hb)
    · simp only [coalesceFrom, if_neg hm]
      rw [List.sorted_cons]
      refine ⟨?_, ih r hrrs⟩
      intro b hb
      rcases coalesceFrom_start_mem eps r rs b hb with h | h
      · show last.start ≤ b.start
        rw [h]
        exact hlast r (List.mem_cons_self r rs)
      · rw [List.mem_map] at h
        obtain ⟨c, hc, hcb⟩ := h
        show last.start ≤ b.start
        rw [← hcb]
        exact hlast c (List.mem_cons_of_mem r hc)

theorem coalesceFrom_separated (eps : ℚ) (last : TimeInterval)
    (rs : List TimeInterval) :
    List.Chain' (fun a b => a.stop + eps < b.start) (coalesceFrom eps last rs) := by
  induction rs generalizing last with
  | nil => simp [coalesceFrom]
  | cons r rs ih =>
    by_cases hm : r.start ≤ last.stop + eps
    · simpa only [coalesceFrom, if_pos hm] using ih ⟨last.start, max last.stop r.stop⟩
    · simp only [coalesceFrom, if_neg hm]
      obtain ⟨h, t, he, hs⟩ := coalesceFrom_cons eps r rs
      rw [he, List.chain'_cons]
      refine ⟨?_, he ▸ ih r⟩
      rw [hs]
      exact lt_of_not_ge hm

theorem coalesceFrom_of_separated (eps : ℚ) (last : TimeInterval)
    (rs : List TimeInterval)
    (hc : List.Chain' (fun a b => a.stop + eps < b.start) (last :: rs)) :
    coalesceFrom eps last rs = last :: rs := by
  induction rs generalizing last with
  | nil => rfl
  | cons r rs ih =>
    rw [List.chain'_cons] at hc
    obtain ⟨hlr, hrest⟩ := hc
    have hm : ¬ r.start ≤ last.stop + eps := not_le_of_lt hlr
    simp only [coalesceFrom, if_neg hm]
    rw [ih r hrest]

/-- Claim C8: `merge` is idempotent — re-coalescing an already coalesced
list returns it unchanged, for every input list and every epsilon. -/
theorem coalesce_idempotent (S : List TimeInterval) (eps : ℚ) :
    _coalesce_ranges (_coalesce_ranges S eps) eps = _coalesce_ranges S eps := by
  unfold _coalesce_ranges
  cases hS : List.insertionSort startLE S with
  | nil => rfl
  | cons r rs =>
    have hsorted : List.Sorted startLE (coalesceFrom eps r rs) := by
      refine coalesceFrom_sorted eps r rs ?_
      rw [← hS]
      exact List.sorted_insertionSort startLE S
    rw [hsorted.insertionSort_eq]
    obtain ⟨h, t, he, _⟩ := coalesceFrom_cons eps r rs
    rw [he]
    have hchain : List.Chain' (fun a b => a.stop + eps < b.start) (h :: t) := by
      rw [← he]
      exact coalesceFrom_separated eps r rs
    exact (he ▸ coalesceFrom_of_separated eps h t hchain : _)

theorem coalesceMutGo_store_evol (eps : ℚ) (ps : List ℕ) :
    ∀ (store : List TimeInterval) (lastPos : ℕ) (accRev : List ℕ),
      ((coalesceMutGo eps ps store lastPos accRev).1.length = store.length) ∧
      ∀ i : ℕ,
        ((coalesceMutGo eps ps store lastPos accRev).1.getD i defaultInterval).start =
          (store.getD i defaultInterval).start ∧
        (store.getD i defaultInterval).stop ≤
          ((coalesceMutGo eps ps store lastPos accRev).1.getD i defaultInterval).stop := by
  induction ps with
  | nil => exact fun store lastPos accRev => ⟨rfl, fun i => ⟨rfl, le_refl _⟩⟩
  | cons p ps ih =>
    intro store lastPos accRev
    by_cases hm : (store.getD p defaultInterval).start ≤
        (store.getD lastPos defaultInterval).stop + eps
    · have hgo : coalesceMutGo eps (p :: ps) store lastPos accRev =
          coalesceMutGo eps ps
            (store.set lastPos
              ⟨(store.getD lastPos defaultInterval).start,
                max (store.getD lastPos defaultInterval).stop
                  (store.getD p defaultInterval).stop⟩)
            lastPos accRev := by
        simp only [coalesceMutGo, if_pos hm]
      rw [hgo]
      by_cases hlt : lastPos < store.length
      · obtain ⟨ihl, ihv⟩ := ih (store.set lastPos
          ⟨(store.getD lastPos defaultInterval).start,
            max (store.getD lastPos defaultInterval).stop
              (store.getD p defaultInterval).stop⟩) lastPos accRev
        refine ⟨by rw [ihl, List.length_set], fun i => ?_⟩
        obtain ⟨ihs, ihe⟩ := ihv i
        by_cases hi : i = lastPos
        · subst hi
          have hset : ((store.set i
              ⟨(store.getD i defaultInterval).start,
                max (store.getD i defaultInterval).stop
                  (store.getD p defaultInterval).stop⟩).getD i defaultInterval) =
              ⟨(store.getD i defaultInterval).start,
                max (store.getD i defaultInterval).stop
                  (store.getD p defaultInterval).stop⟩ := by
            simp [List.getD_eq_getElem?_getD, List.getElem?_set_self, hlt]
          rw [hset] at ihs ihe
          exact ⟨ihs, le_trans (le_max_left _ _) ihe⟩
        · have hset : ((store.set lastPos
              ⟨(store.getD lastPos defaultInterval).start,
                max (store.getD lastPos defaultInterval).stop
                  (store.getD p defaultInterval).stop⟩).getD i defaultInterval) =
              store.getD i defaultInterval := by
            simp [List.getD_eq_getElem?_getD, List.getElem?_set_ne (Ne.symm hi)]
          rw [hset] at ihs ihe
          exact ⟨ihs, ihe⟩
      · rw [List.set_eq_of_length_le (le_of_not_lt hlt)]
        exact ih store lastPos accRev
    · have hgo : coalesceMutGo eps (p :: ps) store lastPos accRev =
          coalesceMutGo eps ps store p (lastPos :: accRev) := by
        simp only [coalesceMutGo, if_neg hm]
      rw [hgo]
      exact ih store p (lastPos :: accRev)

/-- Claim C9 (counterexample): merging the overlapping list
`[{0,2}, {1,3}]` writes the raised end back through the alias
`merged[-1]`, so the caller's first dictionary ends up as `{0,3}` — the
input is modified. -/
theorem coalesce_mutates_input_cex :
    ¬ ((coalesceMut defaultEps [⟨0,2⟩, ⟨1,3⟩]).1 = [⟨0,2⟩, ⟨1,3⟩]) := by
  have hv : (coalesceMut defaultEps [⟨0,2⟩, ⟨1,3⟩]).1 = [⟨0,3⟩, ⟨1,3⟩] := by
    norm_num [coalesceMut, coalesceMutGo, List.insertionSort, List.orderedInsert,
      posLE, defaultInterval, defaultEps, List.range, List.range.loop]
  rw [hv]
  intro h
  rw [List.cons.injEq, TimeInterval.mk.injEq] at h
  norm_num at h

/-- Claim C9 (amended): merge may mutate the intervals passed to it — when
a later overlapping interval is absorbed, the in-place write
`last['end'] = max(last['end'], r['end'])` raises the end of an input
dictionary — but it never changes any interval's start, never shrinks any
interval, and never adds or removes input entries. -/
theorem coalesce_mutation_is_monotone (eps : ℚ) (S : List TimeInterval) :
    (coalesceMut eps S).1.length = S.length ∧
    ∀ i : ℕ,
      ((coalesceMut eps S).1.getD i defaultInterval).start =
        (S.getD i defaultInterval).start ∧
      (S.getD i defaultInterval).stop ≤
        ((coalesceMut eps S).1.getD i defaultInterval).stop := by
  unfold coalesceMut
  cases hS : List.insertionSort (posLE S) (List.range S.length) with
  | nil => exact ⟨rfl, fun i => ⟨rfl, le_refl _⟩⟩
  | cons p ps => exact coalesceMutGo_store_evol eps ps S p []

theorem mem_covered {x : ℚ} {l : List TimeInterval} :
    x ∈ covered l ↔ ∃ i ∈ l, i.start ≤ x ∧ x < i.stop := Iff.rfl

theorem covered_eq_of_perm {l l' : List TimeInterval} (h : l.Perm l') :
    covered l = covered l' := by
  ext x
  simp only [mem_covered]
  constructor <;> rintro ⟨i, hi, hx⟩
  · exact ⟨i, h.mem_iff.mp hi, hx⟩
  · exact ⟨i, h.mem_iff.mpr hi, hx⟩

theorem covered_coalesceFrom_superset (eps : ℚ) (last : TimeInterval)
    (rs : List TimeInterval) (hs : List.Sorted startLE (last :: rs)) :
    covered (last :: rs) ⊆ covered (coalesceFrom eps last rs) := by
  induction rs generalizing last with
  | nil => exact fun x hx => hx
  | cons r rs ih =>
    rw [List.sorted_cons] at hs
    obtain ⟨hlast, hrrs⟩ := hs
    by_cases hm : r.start ≤ last.stop + eps
    · simp only [coalesceFrom, if_pos hm]
      have hmid : List.Sorted startLE
          ((⟨last.start, max last.stop r.stop⟩ : TimeInterval) :: rs) := by
        rw [List.sorted_cons]
        exact ⟨fun b hb => hlast b (List.mem_cons_of_mem r hb), hrrs.of_cons⟩
      refine fun x hx => ih ⟨last.start, max last.stop r.stop⟩ hmid ?_
      obtain ⟨i, hi, hix⟩ := hx
      rcases List.mem_cons.mp hi with hEq | hi
      · rw [hEq] at hix
        exact ⟨⟨last.start, max last.stop r.stop⟩, List.mem_cons_self _ _,
          hix.1, lt_of_lt_of_le hix.2 (le_max_left _ _)⟩
      rcases List.mem_cons.mp hi with hEq | hi
      · rw [hEq] at hix
        refine ⟨⟨last.start, max last.stop r.stop⟩, List.mem_cons_self _ _, ?_, ?_⟩
        · exact le_trans (hlast r (List.mem_cons_self r rs)) hix.1
        · exact lt_of_lt_of_le hix.2 (le_max_right _ _)
      · exact ⟨i, List.mem_cons_of_mem _ hi, hix⟩
    · simp only [coalesceFrom, if_neg hm]
      intro x hx
      obtain ⟨i, hi, hix⟩ := hx
      rcases List.mem_cons.mp hi with hEq | hi
      · rw [hEq] at hix
        exact ⟨last, List.mem_cons_self _ _, hix⟩
      · have : x ∈ covered (coalesceFrom eps r rs) :=
          ih r hrrs ⟨i, hi, hix⟩
        obtain ⟨j, hj, hjx⟩ := this
        exact ⟨j, List.mem_cons_of_mem _ hj, hjx⟩

theorem covered_coalesceFrom_subset_zero (last : TimeInterval)
    (rs : List TimeInterval) :
    covered (coalesceFrom 0 last rs) ⊆ covered (last :: rs) := by
  induction rs generalizing last with
  | nil => exact fun x hx => hx
  | cons r rs ih =>
    by_cases hm : r.start ≤ last.stop + 0
    · simp only [coalesceFrom, if_pos hm]
      intro x hx
      have hx' : x ∈ covered ((⟨last.start, max last.stop r.stop⟩ : TimeInterval) :: rs) :=
        ih ⟨last.start, max last.stop r.stop⟩ hx
      obtain ⟨i, hi, hix⟩ := hx'
      rcases List.mem_cons.mp hi with hEq | hi
      · rw [hEq] at hix
        by_cases hlt : x < last.stop
        · exact ⟨last, List.mem_cons_self _ _, hix.1, hlt⟩
        · refine ⟨r, List.mem_cons_of_mem _ (List.mem_cons_self r rs), ?_, ?_⟩
          · rw [add_zero] at hm
            exact le_trans hm (le_of_not_lt hlt)
          · rcases max_cases last.stop r.stop with ⟨hmax, -⟩ | ⟨hmax, -⟩
            · exact absurd (hmax ▸ hix.2) hlt
            · exact hmax ▸ hix.2
      · exact ⟨i, List.mem_cons_of_mem _ (List.mem_cons_of_mem r hi), hix⟩
    · simp only [coalesceFrom, if_neg hm]
      intro x hx
      obtain ⟨i, hi, hix⟩ := hx
      rcases List.mem_cons.mp hi with hEq | hi
      · rw [hEq] at hix
        exact ⟨last, List.mem_cons_self _ _, hix⟩
      · have : x ∈ covered (r :: rs) := ih r ⟨i, hi, hix⟩
        obtain ⟨j, hj, hjx⟩ := this
        exact ⟨j, List.mem_cons_of_mem _ hj, hjx⟩

theorem covered_coalesce_superset (S : List TimeInterval) (eps : ℚ) :
    covered S ⊆ covered (_coalesce_ranges S eps) := by
  unfold _coalesce_ranges
  cases hS : List.insertionSort startLE S with
  | nil =>
    have h1 := List.perm_insertionSort startLE S
    rw [hS] at h1
    rw [covered_eq_of_perm h1.symm]
  | cons r rs =>
    have h1 := List.perm_insertionSort startLE S
    rw [hS] at h1
    rw [covered_eq_of_perm h1.symm]
    refine covered_coalesceFrom_superset eps r rs ?_
    rw [← hS]
    exact List.sorted_insertionSort startLE S

/-- Claim C3 (counterexample): with the default epsilon `1e-3`, merging
`[{0,1}, {1.0005, 2}]` bridges the gap `(1, 1.0005)` — the point
`1.00025` is covered by the merged output but by no input range, so the
output does not cover exactly the union of the inputs. -/
theorem coalesce_coverage_cex :
    ¬ (covered (_coalesce_ranges [⟨0,1⟩, ⟨2001/2000, 2⟩] defaultEps) =
        covered [⟨0,1⟩, ⟨2001/2000, 2⟩]) := by
  have hv : _coalesce_ranges [⟨0,1⟩, ⟨2001/2000, 2⟩] defaultEps = [⟨0,2⟩] := by
    norm_num [_coalesce_ranges, coalesceFrom, List.insertionSort, List.orderedInsert,
      startLE, defaultEps]
  rw [hv]
  intro h
  have hx := Set.ext_iff.mp h (4001/4000)
  simp only [mem_covered, List.mem_cons, List.mem_singleton,
    List.not_mem_nil] at hx
  have hmem : ∃ i ∈ [(⟨0,2⟩ : TimeInterval)],
      i.start ≤ (4001/4000 : ℚ) ∧ (4001/4000 : ℚ) < i.stop := by
    refine ⟨⟨0,2⟩, List.mem_singleton_self _, by norm_num, by norm_num⟩
  obtain ⟨i, hi, his⟩ := mem_covered.mp (h ▸ (mem_covered.mpr hmem))
  rcases List.mem_cons.mp hi with rfl | hi
  · norm_num at his
  rcases List.mem_cons.mp hi with rfl | hi
  · norm_num at his
  · exact absurd hi (List.not_mem_nil i)

/-- Claim C3 (amended): for every input list and epsilon, the merged
output is sorted ascending by start and consecutive outputs are separated
by a gap strictly exceeding epsilon; the output covers at least the union
of the input ranges, and for epsilon = 0 the coverage is exactly that
union — but for epsilon > 0 the merge may additionally cover inter-range
gaps of width up to epsilon, so exact coverage equality fails in
general. -/
theorem coalesce_sorted_separated_covers (S : List TimeInterval) (eps : ℚ) :
    List.Sorted startLE (_coalesce_ranges S eps) ∧
    List.Chain' (fun a b => a.stop + eps < b.start) (_coalesce_ranges S eps) ∧
    covered S ⊆ covered (_coalesce_ranges S eps) ∧
    covered (_coalesce_ranges S 0) = covered S := by
  refine ⟨?_, ?_, covered_coalesce_superset S eps, ?_⟩
  · unfold _coalesce_ranges
    cases hS : List.insertionSort startLE S with
    | nil => exact List.sorted_nil
    | cons r rs =>
      refine coalesceFrom_sorted eps r rs ?_
      rw [← hS]
      exact List.sorted_insertionSort startLE S
  · unfold _coalesce_ranges
    cases hS : List.insertionSort startLE S with
    | nil => exact List.chain'_nil
    | cons r rs => exact coalesceFrom_separated eps r rs
  · refine Set.Subset.antisymm ?_ (covered_coalesce_superset S 0)
    unfold _coalesce_ranges
    cases hS : List.insertionSort startLE S with
    | nil => exact fun x hx => absurd hx (by simp [covered])
    | cons r rs =>
      have h1 := List.perm_insertionSort startLE S
      rw [hS] at h1
      rw [← covered_eq_of_perm h1]
      exact covered_coalesceFrom_subset_zero r rs

theorem chain_head_le (r : TimeInterval) (rs : List TimeInterval)
    (hchain : List.Chain' precedes (r :: rs))
    (hvalid : ∀ a ∈ rs, a.start ≤ a.stop) :
    ∀ a ∈ rs, r.stop ≤ a.start := by
  induction rs generalizing r with
  | nil => intro a ha; exact absurd ha (List.not_mem_nil a)
  | cons b rs ih =>
    rw [List.chain'_cons] at hchain
    intro a ha
    rcases List.mem_cons.mp ha with hEq | ha
    · rw [hEq]; exact hchain.1
    · have hb : b.start ≤ b.stop := hvalid b (List.mem_cons_self b rs)
      have := ih b hchain.2 (fun c hc => hvalid c (List.mem_cons_of_mem b hc)) a ha
      exact le_trans hchain.1 (le_trans hb this)

theorem chain_valid_pairwise (l : List TimeInterval)
    (hchain : List.Chain' precedes l)
    (hvalid : ∀ a ∈ l, a.start ≤ a.stop) :
    List.Pairwise precedes l := by
  induction l with
  | nil => exact List.Pairwise.nil
  | cons r rs ih =>
    refine List.Pairwise.cons ?_ (ih hchain.tail
      (fun a ha => hvalid a (List.mem_cons_of_mem r ha)))
    exact chain_head_le r rs hchain (fun a ha => hvalid a (List.mem_cons_of_mem r ha))

theorem chain_valid_sorted (l : List TimeInterval)
    (hchain : List.Chain' precedes l)
    (hvalid : ∀ a ∈ l, a.start ≤ a.stop) :
    List.Sorted startLE l := by
  have hp := chain_valid_pairwise l hchain hvalid
  refine List.Pairwise.imp_of_mem ?_ hp
  intro a b ha _ hab
  exact le_trans (hvalid a ha) hab

theorem invertFrom_spec (D : ℚ) (R : List TimeInterval) :
    (∀ r ∈ R, r.start ≤ r.stop) → List.Chain' precedes R →
    ∀ cur : ℚ,
      List.Chain' precedes (invertFrom D cur R) ∧
      (∀ k ∈ invertFrom D cur R, k.start < k.stop) ∧
      (∀ k ∈ invertFrom D cur R, cur ≤ k.start) ∧
      Set.Ico cur D ⊆ covered (invertFrom D cur R) ∪ covered R ∧
      (∀ x : ℚ, x ∈ covered (invertFrom D cur R) → x ∈ covered R → False) := by
  induction R with
  | nil =>
    intro _ _ cur
    by_cases hc : cur < D
    · refine ⟨?_, ?_, ?_, ?_, ?_⟩ <;>
        simp only [invertFrom, if_pos hc]
      · exact List.chain'_singleton _
      · intro k hk
        rw [List.mem_singleton] at hk
        rw [hk]
        exact hc
      · intro k hk
        rw [List.mem_singleton] at hk
        rw [hk]
      · intro x hx
        exact Or.inl ⟨⟨cur, D⟩, List.mem_singleton_self _, hx.1, hx.2⟩
      · intro x _ hxR
        obtain ⟨i, hi, -⟩ := hxR
        exact absurd hi (List.not_mem_nil i)
    · refine ⟨?_, ?_, ?_, ?_, ?_⟩ <;>
        simp only [invertFrom, if_neg hc]
      · exact List.chain'_nil
      · intro k hk; exact absurd hk (List.not_mem_nil k)
      · intro k hk; exact absurd hk (List.not_mem_nil k)
      · intro x hx
        exact absurd (lt_of_le_of_lt hx.1 hx.2) hc
      · intro x hx _
        obtain ⟨i, hi, -⟩ := hx
        exact absurd hi (List.not_mem_nil i)
  | cons r rs ih =>
    intro hR hchain cur
    have hr : r.start ≤ r.stop := hR r (List.mem_cons_self r rs)
    have hRs : ∀ a ∈ rs, a.start ≤ a.stop :=
      fun a ha => hR a (List.mem_cons_of_mem r ha)
    have hhead : ∀ a ∈ rs, r.stop ≤ a.start := chain_head_le r rs hchain hRs
    obtain ⟨tchain, tpos, tge, tcov, tdisj⟩ := ih hRs hchain.tail (max cur r.stop)
    have coveredRs_mono : ∀ x : ℚ, x ∈ covered rs → x ∈ covered (r :: rs) := by
      intro x hx
      obtain ⟨i, hi, hix⟩ := hx
      exact ⟨i, List.mem_cons_of_mem r hi, hix⟩
    have keepGeStop : ∀ x : ℚ,
        x ∈ covered (invertFrom D (max cur r.stop) rs) → r.stop ≤ x := by
      intro x hx
      obtain ⟨k, hk, hkx⟩ := hx
      exact le_trans (le_trans (le_max_right cur r.stop) (tge k hk)) hkx.1
    have tailNotR : ∀ x : ℚ,
        x ∈ covered (invertFrom D (max cur r.stop) rs) →
          x ∈ covered (r :: rs) → False := by
      intro x hx hxR
      obtain ⟨i, hi, hix⟩ := hxR
      rcases List.mem_cons.mp hi with hEq | hi
      · rw [hEq] at hix
        exact absurd hix.2 (not_lt_of_ge (keepGeStop x hx))
      · exact tdisj x hx ⟨i, hi, hix⟩
    by_cases hgt : r.start > cur
    · have hunf : invertFrom D cur (r :: rs) =
          ⟨cur, r.start⟩ :: invertFrom D (max cur r.stop) rs := by
        simp only [invertFrom, if_pos hgt]
      rw [hunf]
      refine ⟨?_, ?_, ?_, ?_, ?_⟩
      · rw [List.chain'_cons']
        refine ⟨?_, tchain⟩
        intro y hy
        have hym := List.mem_of_mem_head? hy
        show r.start ≤ y.start
        exact le_trans hr (le_trans (le_max_right cur r.stop) (tge y hym))
      · intro k hk
        rcases List.mem_cons.mp hk with hEq | hk
        · rw [hEq]; exact hgt
        · exact tpos k hk
      · intro k hk
        rcases List.mem_cons.mp hk with hEq | hk
        · rw [hEq]
        · exact le_trans (le_max_left cur r.stop) (tge k hk)
      · intro x hx
        by_cases hx1 : x < r.start
        · exact Or.inl ⟨⟨cur, r.start⟩, List.mem_cons_self _ _, hx.1, hx1⟩
        · by_cases hx2 : x < r.stop
          · exact Or.inr ⟨r, List.mem_cons_self r rs, le_of_not_lt hx1, hx2⟩
          · have hxm : x ∈ Set.Ico (max cur r.stop) D :=
              ⟨max_le hx.1 (le_of_not_lt hx2), hx.2⟩
            rcases tcov hxm with hk | hrs
            · obtain ⟨k, hk', hkx⟩ := hk
              exact Or.inl ⟨k, List.mem_cons_of_mem _ hk', hkx⟩
            · exact Or.inr (coveredRs_mono x hrs)
      · intro x hx hxR
        obtain ⟨k, hk, hkx⟩ := hx
        rcases List.mem_cons.mp hk with hEq | hk
        · rw [hEq] at hkx
          obtain ⟨i, hi, hix⟩ := hxR
          rcases List.mem_cons.mp hi with hEq2 | hi
          · rw [hEq2] at hix
            exact absurd hkx.2 (not_lt_of_ge hix.1)
          · exact absurd hkx.2
              (not_lt_of_ge (le_trans hr (le_trans (hhead i hi) hix.1)))
        · exact tailNotR x ⟨k, hk, hkx⟩ hxR
    · have hunf : invertFrom D cur (r :: rs) =
          invertFrom D (max cur r.stop) rs := by
        simp only [invertFrom, if_neg hgt]
      rw [hunf]
      refine ⟨tchain, tpos, ?_, ?_, tailNotR⟩
      · intro k hk
        exact le_trans (le_max_left cur r.stop) (tge k hk)
      · intro x hx
        by_cases hx2 : x < r.stop
        · refine Or.inr ⟨r, List.mem_cons_self r rs, ?_, hx2⟩
          exact le_trans (le_of_not_lt hgt) hx.1
        · have hxm : x ∈ Set.Ico (max cur r.stop) D :=
            ⟨max_le hx.1 (le_of_not_lt hx2), hx.2⟩
          rcases tcov hxm with hk | hrs
          · exact Or.inl hk
          · exact Or.inr (coveredRs_mono x hrs)

/-- Claim C1: on a merged, sorted remove-set `R` (each interval valid and
consecutive intervals non-overlapping) and duration `D ≥ 0`, the
keep-intervals of `_invert_ranges R D` are sorted ascending, pairwise
non-overlapping and non-degenerate; together with the remove-intervals
they cover, within `[0, D)`, exactly `[0, D)` — no gaps — and the
keep-coverage and remove-coverage are disjoint — no double coverage; an
empty remove-set with `D > 0` yields the single keep interval `[0, D)`. -/
theorem invert_partitions (R : List TimeInterval) (D : ℚ) (hD : 0 ≤ D)
    (hR : ∀ r ∈ R, r.start ≤ r.stop)
    (hchain : List.Chain' precedes R) :
    List.Sorted startLE (_invert_ranges R D) ∧
    List.Pairwise precedes (_invert_ranges R D) ∧
    (∀ k ∈ _invert_ranges R D, k.start < k.stop) ∧
    (covered (_invert_ranges R D) ∪ covered R) ∩ Set.Ico 0 D = Set.Ico 0 D ∧
    covered (_invert_ranges R D) ∩ covered R = ∅ ∧
    (R = [] → 0 < D → _invert_ranges R D = [⟨0, D⟩]) := by
  obtain ⟨kchain, kpos, -, kcov, kdisj⟩ := invertFrom_spec D R hR hchain 0
  have kvalid : ∀ k ∈ _invert_ranges R D, k.start ≤ k.stop :=
    fun k hk => le_of_lt (kpos k hk)
  refine ⟨chain_valid_sorted _ kchain kvalid, chain_valid_pairwise _ kchain kvalid,
    kpos, ?_, ?_, ?_⟩
  · refine Set.Subset.antisymm (Set.inter_subset_right) ?_
    intro x hx
    exact ⟨kcov hx, hx⟩
  · rw [Set.eq_empty_iff_forall_not_mem]
    intro x hx
    exact kdisj x hx.1 hx.2
  · intro hempty hpos
    rw [hempty]
    simp only [_invert_ranges, invertFrom, if_pos hpos]

/-- Witness for C1: the merged remove-set `[{2,5}]` against duration 10
gives keep `[{0,2},{5,10}]` with all the partition properties. -/
theorem invert_partitions_witness :
    List.Sorted startLE (_invert_ranges [⟨2,5⟩] 10) ∧
    List.Pairwise precedes (_invert_ranges [⟨2,5⟩] 10) ∧
    (∀ k ∈ _invert_ranges [⟨2,5⟩] 10, k.start < k.stop) ∧
    (covered (_invert_ranges [⟨2,5⟩] 10) ∪ covered [⟨2,5⟩]) ∩ Set.Ico 0 10 =
      Set.Ico 0 10 ∧
    covered (_invert_ranges [⟨2,5⟩] 10) ∩ covered [⟨2,5⟩] = ∅ ∧
    ([(⟨2,5⟩ : TimeInterval)] = [] → (0:ℚ) < 10 → _invert_ranges [⟨2,5⟩] 10 = [⟨0, 10⟩]) :=
  invert_partitions [⟨2,5⟩] 10 (by norm_num)
    (by intro r hr; rw [List.mem_singleton] at hr; rw [hr]; norm_num)
    (List.chain'_singleton _)

/-- Claim C2: an edit request whose inversion yields an empty keep-set
fails with the no-content error (the source's
`ValueError("Nothing to keep after removing segments")`, the spec's
`NoContentRemainingError`), and no engine subprocess is spawned. -/
theorem no_content_fails_before_spawn (duration : ℚ)
    (removeSegments : List TimeInterval) (engine : EngineRun)
    (h : _invert_ranges (_coalesce_ranges removeSegments defaultEps) duration = []) :
    auto_edit_video duration removeSegments engine =
      (Except.error EditError.noContentRemaining, 0) := by
  simp [auto_edit_video, h]

/-- Witness for C2: removing `[0,5]` from a duration-5 video leaves
nothing; the edit fails with the no-content error and spawns nothing. -/
theorem no_content_fails_before_spawn_witness :
    _invert_ranges (_coalesce_ranges [(⟨0,5⟩ : TimeInterval)] defaultEps) 5 = [] ∧
    auto_edit_video 5 [⟨0,5⟩] ⟨0, ""⟩ =
      (Except.error EditError.noContentRemaining, 0) := by
  have h : _invert_ranges (_coalesce_ranges [(⟨0,5⟩ : TimeInterval)] defaultEps) 5 = [] := by
    norm_num [_invert_ranges, _coalesce_ranges, invertFrom, coalesceFrom,
      List.insertionSort, List.orderedInsert]
  exact ⟨h, no_content_fails_before_spawn 5 [⟨0,5⟩] ⟨0, ""⟩ h⟩

/-- Claim C4 (counterexample): merge does not behave as if intervals with
`end <= start` were absent — coalescing `[{5,5}, {7,3}]` does not agree
with coalescing the empty list, so the degenerate intervals are not
excluded before merge. -/
theorem degenerate_not_dropped_cex :
    ¬ (_coalesce_ranges [⟨5,5⟩, ⟨7,3⟩] defaultEps = _coalesce_ranges [] defaultEps) := by
  norm_num [_coalesce_ranges, coalesceFrom, List.insertionSort, List.orderedInsert,
    startLE, defaultEps]
  exact List.cons_ne_nil _ _

/-- Claim C4 (amended): degenerate intervals (`end <= start`) are NOT
dropped before merging — `{5,5}` and `{7,3}` pass through `_coalesce_ranges`
unchanged; they are only neutralized at the compile stage, where every trim
stage is clamped to `0 <= ss <= to` (`ss = max(0, start)`,
`to = max(ss, end)`). -/
theorem degenerate_retained_clamped_at_compile :
    _coalesce_ranges [⟨5,5⟩, ⟨7,3⟩] defaultEps = [⟨5,5⟩, ⟨7,3⟩] ∧
    (∀ keep : List TimeInterval,
      ((autoEditFilterGraph keep).videoTrims).Forall
        (fun st => 0 ≤ st.ss ∧ st.ss ≤ st.toVal) ∧
      ((autoEditFilterGraph keep).audioTrims).Forall
        (fun st => 0 ≤ st.ss ∧ st.ss ≤ st.toVal)) := by
  constructor
  · norm_num [_coalesce_ranges, coalesceFrom, List.insertionSort, List.orderedInsert,
      startLE, defaultEps]
  · intro keep
    constructor <;>
    · rw [List.forall_iff_forall_mem]
      intro st hst
      simp only [autoEditFilterGraph, List.mem_map] at hst
      obtain ⟨seg, -, rfl⟩ := hst
      exact ⟨le_max_left _ _, le_max_left _ _⟩

/-- Claim C5: for a non-empty keep list the compiled graph has exactly one
video-trim and one audio-trim stage per keep interval, each resetting its
timestamp origin (`setpts=PTS-STARTPTS`), fed in index order into a single
concat stage with `n = len(keep)`; the end-to-end example (duration 10,
remove `[{2,4},{3,5}]`) gives keep `[{0,2},{5,10}]`, 2 trim pairs and
`n = 2`. -/
theorem filter_graph_one_trim_pair_per_keep (keep : List TimeInterval)
    (h : keep ≠ []) :
    (autoEditFilterGraph keep).videoTrims.length = keep.length ∧
    (autoEditFilterGraph keep).audioTrims.length = keep.length ∧
    ((autoEditFilterGraph keep).videoTrims).Forall (fun st => st.resetPTS = true) ∧
    ((autoEditFilterGraph keep).audioTrims).Forall (fun st => st.resetPTS = true) ∧
    (autoEditFilterGraph keep).concatInputs =
      (List.range keep.length).map (fun idx => (idx, idx)) ∧
    (autoEditFilterGraph keep).concatN = keep.length ∧
    _invert_ranges (_coalesce_ranges [⟨2,4⟩, ⟨3,5⟩] defaultEps) 10 = [⟨0,2⟩, ⟨5,10⟩] ∧
    (autoEditFilterGraph [⟨0,2⟩, ⟨5,10⟩]).videoTrims.length = 2 ∧
    (autoEditFilterGraph [⟨0,2⟩, ⟨5,10⟩]).audioTrims.length = 2 ∧
    (autoEditFilterGraph [⟨0,2⟩, ⟨5,10⟩]).concatN = 2 := by
  refine ⟨by simp [autoEditFilterGraph], by simp [autoEditFilterGraph], ?_, ?_,
    rfl, rfl, ?_, by simp [autoEditFilterGraph], by simp [autoEditFilterGraph], rfl⟩
  · rw [List.forall_iff_forall_mem]
    intro st hst
    simp only [autoEditFilterGraph, List.mem_map] at hst
    obtain ⟨seg, -, rfl⟩ := hst
    rfl
  · rw [List.forall_iff_forall_mem]
    intro st hst
    simp only [autoEditFilterGraph, List.mem_map] at hst
    obtain ⟨seg, -, rfl⟩ := hst
    rfl
  · norm_num [_invert_ranges, _coalesce_ranges, invertFrom, coalesceFrom,
      List.insertionSort, List.orderedInsert, startLE, defaultEps]

/-- Witness for C5: the keep list `[{0,2},{5,10}]` of the end-to-end
example is non-empty and its graph has 2 trim pairs and `n = 2`. -/
theorem filter_graph_one_trim_pair_per_keep_witness :
    ([(⟨0,2⟩ : TimeInterval), ⟨5,10⟩] ≠ []) ∧
    (autoEditFilterGraph [⟨0,2⟩, ⟨5,10⟩]).videoTrims.length = [(⟨0,2⟩ : TimeInterval), ⟨5,10⟩].length ∧
    (autoEditFilterGraph [⟨0,2⟩, ⟨5,10⟩]).concatN = 2 := by
  have h : ([(⟨0,2⟩ : TimeInterval), ⟨5,10⟩] ≠ []) := by simp
  exact ⟨h, (filter_graph_one_trim_pair_per_keep [⟨0,2⟩, ⟨5,10⟩] h).1,
    (filter_graph_one_trim_pair_per_keep [⟨0,2⟩, ⟨5,10⟩] h).2.2.2.2.2.2.2.2.2⟩

/-- Claim C6: once the engine is invoked (keep-set non-empty), the edit
succeeds iff the exit code is zero; every nonzero exit surfaces as the
encode error carrying the engine's stderr verbatim (as a returned error,
not a crash), and exactly one engine process is ever spawned (no retry);
exit code 1 with diagnostic text "Invalid argument" yields
`encodeError "Invalid argument"`. -/
theorem engine_exit_code_contract (duration : ℚ)
    (removeSegments : List TimeInterval) (engine : EngineRun)
    (h : _invert_ranges (_coalesce_ranges removeSegments defaultEps) duration ≠ []) :
    ((auto_edit_video duration removeSegments engine).1.isOk = true ↔
      engine.exitCode = 0) ∧
    (engine.exitCode ≠ 0 →
      (auto_edit_video duration removeSegments engine).1 =
        Except.error (EditError.encodeError engine.stderr)) ∧
    (auto_edit_video duration removeSegments engine).2 = 1 ∧
    (auto_edit_video 10 [] ⟨1, "Invalid argument"⟩).1 =
      Except.error (EditError.encodeError "Invalid argument") := by
  refine ⟨?_, ?_, ?_, ?_⟩
  · by_cases hz : engine.exitCode = 0 <;>
      simp [auto_edit_video, h, hz, Except.isOk, Except.toBool]
  · intro hz
    simp [auto_edit_video, h, hz]
  · by_cases hz : engine.exitCode = 0 <;> simp [auto_edit_video, h, hz]
  · norm_num [auto_edit_video, _invert_ranges, _coalesce_ranges, invertFrom,
      List.insertionSort]

/-- Witness for C6: duration 10, nothing removed, engine exits 1 with
stderr "Invalid argument". -/
theorem engine_exit_code_contract_witness :
    (_invert_ranges (_coalesce_ranges [] defaultEps) 10 ≠ []) ∧
    (auto_edit_video 10 [] ⟨1, "Invalid argument"⟩).1 =
      Except.error (EditError.encodeError "Invalid argument") := by
  have h : _invert_ranges (_coalesce_ranges [] defaultEps) 10 ≠ [] := by
    norm_num [_invert_ranges, _coalesce_ranges, invertFrom, List.insertionSort]
  refine ⟨h, ((engine_exit_code_contract 10 [] ⟨1, "Invalid argument"⟩ h).2.1 ?_)⟩
  norm_num

/-- Claim C7: the per-line silence parser is the `{Idle, InSilence}`
machine — a start marker while idle records the timestamp; an end marker
while tracking a start emits the interval and returns to idle; an end
marker while idle is ignored; whatever is pending when the stream ends is
discarded; and the stream
`"silence_start: 1.0\nsilence_end: 2.5\nsilence_start: 9.0\n"` yields
exactly `[{1.0, 2.5}]`. -/
theorem silence_parser_fsm :
    (∀ (t : ℚ) (rest : List (Option ℚ × Option ℚ)),
      detectLoop none ((some t, none) :: rest) = detectLoop (some t) rest) ∧
    (∀ (s e : ℚ) (rest : List (Option ℚ × Option ℚ)),
      detectLoop (some s) ((none, some e) :: rest) =
        ⟨s, e⟩ :: detectLoop none rest) ∧
    (∀ (e : ℚ) (rest : List (Option ℚ × Option ℚ)),
      detectLoop none ((none, some e) :: rest) = detectLoop none rest) ∧
    (∀ st : Option ℚ, detectLoop st [] = []) ∧
    detect_silence_intervals
        "silence_start: 1.0\nsilence_end: 2.5\nsilence_start: 9.0\n" =
      [⟨1, 5/2⟩] := by
  refine ⟨fun t rest => rfl, fun s e rest => rfl, fun e rest => rfl,
    fun st => rfl, ?_⟩
  simp +decide [detect_silence_intervals, detectLoop, splitLines, startMarker,
    endMarker, searchCapture, afterLit, parseFloat, parseNatDigits, isNumChar,
    digitVal, List.takeWhile, List.splitOn, List.splitOnP, List.splitOnP.go]
  norm_num

/-- Claim C10: a second `silence_start` before the matching `silence_end`
overwrites the pending start — the parser discards the earlier timestamp,
and the next `silence_end` is paired with the most recent start; the
stream `"silence_start: 1.0\nsilence_start: 2.0\nsilence_end: 3.0\n"`
yields `[{2.0, 3.0}]`. -/
theorem silence_parser_restart_overwrites :
    (∀ (s t : ℚ) (rest : List (Option ℚ × Option ℚ)),
      detectLoop (some s) ((some t, none) :: rest) = detectLoop (some t) rest) ∧
    (∀ (s t e : ℚ) (rest : List (Option ℚ × Option ℚ)),
      detectLoop (some s) ((some t, none) :: (none, some e) :: rest) =
        ⟨t, e⟩ :: detectLoop none rest) ∧
    detect_silence_intervals
        "silence_start: 1.0\nsilence_start: 2.0\nsilence_end: 3.0\n" =
      [⟨2, 3⟩] := by
  refine ⟨fun s t rest => rfl, fun s t e rest => rfl, ?_⟩
  simp +decide [detect_silence_intervals, detectLoop, splitLines, startMarker,
    endMarker, searchCapture, afterLit, parseFloat, parseNatDigits, isNumChar,
    digitVal, List.takeWhile, List.splitOn, List.splitOnP, List.splitOnP.go]
